import Mathlib

/-!
Verification of the ledger derivation engine of the My-ledger repository.

The engine (the `ledgers` memo in `src/App.tsx`, lines 50-98) turns a flat
list of transactions into one ledger per distinct `party`, sorting each
party's transactions by their `date` string, walking them once with a
running balance under the double-entry sign rule, and labelling each
balance as debit- or credit-natured.

Modelling decisions:
* JavaScript numbers are modelled as `ℤ` (exact arithmetic).
* `a.date.localeCompare(b.date)` is modelled as code-point lexicographic
  comparison of the date strings (`lexLE` on the character lists).
* `Array.prototype.sort` is a stable sort (ECMAScript 2019), modelled by
  `List.mergeSort`.
* `Array.from(new Set(xs))` keeps distinct values in first-seen order,
  modelled by `firstSeen`.
-/

namespace MyLedger

/-- `AccountType` from `src/types.ts`. -/
inductive AccountType where
  | Asset
  | Liability
  | Income
  | Expense
  | Equity
deriving DecidableEq

/-- `Transaction` from `src/types.ts`. -/
structure Transaction where
  id : String
  date : String
  particulars : String
  debit : ℤ
  credit : ℤ
  party : String
  accountType : AccountType
deriving DecidableEq

/-- The `'Dr' | 'Cr'` balance label from `src/types.ts`. -/
inductive BalanceType where
  | Dr
  | Cr
deriving DecidableEq

/-- `LedgerEntry` from `src/types.ts`: a transaction plus the running
balance and its label. -/
structure LedgerEntry extends Transaction where
  balance : ℤ
  balanceType : BalanceType
deriving DecidableEq

/-- `AccountLedger` from `src/types.ts`. -/
structure AccountLedger where
  accountName : String
  entries : List LedgerEntry
  openingBalance : ℤ
  closingBalance : ℤ
  closingBalanceType : BalanceType
  totalDebit : ℤ
  totalCredit : ℤ
deriving DecidableEq

/-- Code-point lexicographic comparison of character lists; the model of
`a.localeCompare(b) <= 0` used by the date sort comparator. -/
def lexLE : List Char → List Char → Bool
  | [], _ => true
  | _ :: _, [] => false
  | c :: cs, d :: ds => if c = d then lexLE cs ds else decide (c.toNat < d.toNat)

/-- String comparison for dates (`a.localeCompare(b) <= 0`). -/
def strLE (a b : String) : Bool := lexLE a.data b.data

/-- The sort comparator `(a, b) => a.date.localeCompare(b.date)` of
`src/App.tsx` line 56, as a `≤`-style Boolean relation. -/
def dateLE (a b : Transaction) : Bool := strLE a.date b.date

/-- `tx.accountType === 'Asset' || tx.accountType === 'Expense'`
(`src/App.tsx` line 66). -/
def isAssetOrExpense (a : AccountType) : Bool :=
  a == AccountType.Asset || a == AccountType.Expense

/-- The running-balance update of `src/App.tsx` lines 68-72:
`runningBalance += (debit - credit)` for `Asset`/`Expense`, otherwise
`runningBalance += (credit - debit)`. -/
def stepBalance (b : ℤ) (tx : Transaction) : ℤ :=
  if isAssetOrExpense tx.accountType then b + (tx.debit - tx.credit)
  else b + (tx.credit - tx.debit)

/-- The balance label of `src/App.tsx` lines 77-79 (and 91-93):
`Dr` when the balance is `≥ 0` and the account is debit-natured, with the
labels inverted for a negative balance. -/
def entryBalanceType (isAE : Bool) (bal : ℤ) : BalanceType :=
  if bal ≥ 0 then (if isAE then BalanceType.Dr else BalanceType.Cr)
  else (if isAE then BalanceType.Cr else BalanceType.Dr)

/-- `transactions.filter(t => t.party === party).sort((a, b) =>
a.date.localeCompare(b.date))` from `src/App.tsx` lines 54-56. -/
def partyTxs (txs : List Transaction) (party : String) : List Transaction :=
  (txs.filter (fun t => t.party == party)).mergeSort dateLE

/-- Result of one pass over a party's sorted transactions: the loop of
`src/App.tsx` lines 58-81 with its three accumulators. -/
structure WalkResult where
  entries : List LedgerEntry
  totalDebit : ℤ
  totalCredit : ℤ
  runningBalance : ℤ

/-- The `partyTxs.map(tx => ...)` loop of `src/App.tsx` lines 62-81:
accumulates `totalDebit`, `totalCredit` and `runningBalance` while
emitting one `LedgerEntry` per transaction. -/
def ledgerWalk (b d c : ℤ) : List Transaction → WalkResult
  | [] => { entries := [], totalDebit := d, totalCredit := c, runningBalance := b }
  | tx :: rest =>
    let r := ledgerWalk (stepBalance b tx) (d + tx.debit) (c + tx.credit) rest
    { entries :=
        { toTransaction := tx
          balance := stepBalance b tx
          balanceType := entryBalanceType (isAssetOrExpense tx.accountType) (stepBalance b tx) }
        :: r.entries
      totalDebit := r.totalDebit
      totalCredit := r.totalCredit
      runningBalance := r.runningBalance }

/-- `partyTxs[0]?.accountType === 'Asset' || partyTxs[0]?.accountType ===
'Expense'` from `src/App.tsx` lines 83-84; `undefined` compares unequal,
so an empty list yields `false`. -/
def firstIsAssetOrExpense (l : List Transaction) : Bool :=
  match l.head? with
  | some tx => isAssetOrExpense tx.accountType
  | none => false

/-- The ledger built for one party: `src/App.tsx` lines 53-96. -/
def mkLedger (txs : List Transaction) (party : String) : AccountLedger :=
  let r := ledgerWalk 0 0 0 (partyTxs txs party)
  { accountName := party
    entries := r.entries
    openingBalance := 0
    closingBalance := r.runningBalance
    closingBalanceType :=
      entryBalanceType (firstIsAssetOrExpense (partyTxs txs party)) r.runningBalance
    totalDebit := r.totalDebit
    totalCredit := r.totalCredit }

/-- `Array.from(new Set(xs))`: distinct values in first-seen order
(`src/App.tsx` line 51). -/
def firstSeen : List String → List String
  | [] => []
  | x :: xs => x :: (firstSeen xs).filter (fun y => !(y == x))

/-- The `ledgers` derivation of `src/App.tsx` lines 50-98. -/
def ledgers (txs : List Transaction) : List AccountLedger :=
  (firstSeen (txs.map (fun t => t.party))).map (fun party => mkLedger txs party)

/-- The signed amount of one transaction as the claims state it:
`debit - credit` for `Asset`/`Expense`, `credit - debit` for
`Liability`/`Income`/`Equity`. -/
def claimSigned (t : Transaction) : ℤ :=
  match t.accountType with
  | AccountType.Asset => t.debit - t.credit
  | AccountType.Expense => t.debit - t.credit
  | AccountType.Liability => t.credit - t.debit
  | AccountType.Income => t.credit - t.debit
  | AccountType.Equity => t.credit - t.debit

theorem stepBalance_eq_claimSigned (b : ℤ) (tx : Transaction) :
    stepBalance b tx = b + claimSigned tx := by
  cases h : tx.accountType <;>
    simp [stepBalance, isAssetOrExpense, claimSigned, h]

theorem char_toNat_injective {c d : Char} (h : c.toNat = d.toNat) : c = d := by
  have := congrArg Char.ofNat h
  simpa using this

theorem lexLE_refl : ∀ s, lexLE s s = true
  | [] => rfl
  | _ :: cs => by simp [lexLE, lexLE_refl cs]

theorem lexLE_total : ∀ s t, (lexLE s t || lexLE t s) = true
  | [], t => by cases t <;> simp [lexLE]
  | _ :: _, [] => by simp [lexLE]
  | c :: cs, d :: ds => by
    by_cases h : c = d
    · subst h
      simpa [lexLE] using lexLE_total cs ds
    · have h2 : d ≠ c := fun hdc => h hdc.symm
      rcases Nat.lt_trichotomy c.toNat d.toNat with h1 | h1 | h1
      · simp [lexLE, h, h2, h1]
      · exact absurd (char_toNat_injective h1) h
      · simp [lexLE, h, h2, h1]

theorem lexLE_trans : ∀ s t u, lexLE s t = true → lexLE t u = true → lexLE s u = true
  | [], _, _, _, _ => rfl
  | _ :: _, [], _, h1, _ => by simp [lexLE] at h1
  | _ :: _, _ :: _, [], _, h2 => by simp [lexLE] at h2
  | c :: cs, d :: ds, e :: es, h1, h2 => by
    by_cases hcd : c = d <;> by_cases hde : d = e
    · subst hcd; subst hde
      simp only [lexLE, if_pos rfl] at h1 h2 ⊢
      exact lexLE_trans cs ds es h1 h2
    · subst hcd
      simp only [lexLE, if_pos rfl] at h1
      simpa [lexLE, hde] using h2
    · subst hde
      simp only [lexLE, if_pos rfl] at h2
      simpa [lexLE, hcd] using h1
    · simp only [lexLE, if_neg hcd] at h1
      simp only [lexLE, if_neg hde] at h2
      have hlt : c.toNat < e.toNat :=
        Nat.lt_trans (of_decide_eq_true h1) (of_decide_eq_true h2)
      have hce : c ≠ e := fun hc => by
        subst hc; exact Nat.lt_irrefl _ hlt
      simp [lexLE, hce, hlt]

theorem dateLE_trans (a b c : Transaction) (h1 : dateLE a b) (h2 : dateLE b c) :
    dateLE a c :=
  lexLE_trans _ _ _ h1 h2

theorem dateLE_total (a b : Transaction) : dateLE a b || dateLE b a :=
  lexLE_total a.date.data b.date.data

/-- Transactions with equal dates compare `≤` both ways. -/
theorem dateLE_of_date_eq {a b : Transaction} (h : a.date = b.date) :
    dateLE a b = true := by
  unfold dateLE strLE
  rw [h]
  exact lexLE_refl _

theorem ledgerWalk_entries_map_tx :
    ∀ (l : List Transaction) (b d c : ℤ),
      ((ledgerWalk b d c l).entries).map (fun e => e.toTransaction) = l
  | [], _, _, _ => rfl
  | tx :: rest, b, d, c => by
    simp [ledgerWalk, ledgerWalk_entries_map_tx rest]

theorem ledgerWalk_entries_length (l : List Transaction) (b d c : ℤ) :
    ((ledgerWalk b d c l).entries).length = l.length := by
  have h := congrArg List.length (ledgerWalk_entries_map_tx l b d c)
  simpa using h

theorem ledgerWalk_runningBalance :
    ∀ (l : List Transaction) (b d c : ℤ),
      (ledgerWalk b d c l).runningBalance = b + (l.map claimSigned).sum
  | [], b, _, _ => by simp [ledgerWalk]
  | tx :: rest, b, d, c => by
    rw [show (ledgerWalk b d c (tx :: rest)).runningBalance
        = (ledgerWalk (stepBalance b tx) (d + tx.debit) (c + tx.credit) rest).runningBalance
        from rfl]
    rw [ledgerWalk_runningBalance rest, stepBalance_eq_claimSigned]
    simp [add_assoc]

theorem ledgerWalk_totalDebit :
    ∀ (l : List Transaction) (b d c : ℤ),
      (ledgerWalk b d c l).totalDebit = d + (l.map (fun t => t.debit)).sum
  | [], _, d, _ => by simp [ledgerWalk]
  | tx :: rest, b, d, c => by
    rw [show (ledgerWalk b d c (tx :: rest)).totalDebit
        = (ledgerWalk (stepBalance b tx) (d + tx.debit) (c + tx.credit) rest).totalDebit
        from rfl]
    rw [ledgerWalk_totalDebit rest]
    simp [add_assoc]

theorem ledgerWalk_totalCredit :
    ∀ (l : List Transaction) (b d c : ℤ),
      (ledgerWalk b d c l).totalCredit = c + (l.map (fun t => t.credit)).sum
  | [], _, _, c => by simp [ledgerWalk]
  | tx :: rest, b, d, c => by
    rw [show (ledgerWalk b d c (tx :: rest)).totalCredit
        = (ledgerWalk (stepBalance b tx) (d + tx.debit) (c + tx.credit) rest).totalCredit
        from rfl]
    rw [ledgerWalk_totalCredit rest]
    simp [add_assoc]

theorem ledgerWalk_balance_at :
    ∀ (l : List Transaction) (b d c : ℤ) (k : Nat), k < l.length →
      ((ledgerWalk b d c l).entries[k]?).map (fun e => e.balance)
        = some (b + ((l.take (k + 1)).map claimSigned).sum)
  | [], _, _, _, k, hk => by simp at hk
  | tx :: rest, b, d, c, 0, _ => by
    simp [ledgerWalk, stepBalance_eq_claimSigned]
  | tx :: rest, b, d, c, k + 1, hk => by
    have hk' : k < rest.length := by
      simpa using Nat.lt_of_succ_lt_succ hk
    have ih := ledgerWalk_balance_at rest (stepBalance b tx) (d + tx.debit) (c + tx.credit) k hk'
    rw [show (ledgerWalk b d c (tx :: rest)).entries
        = { toTransaction := tx
            balance := stepBalance b tx
            balanceType := entryBalanceType (isAssetOrExpense tx.accountType) (stepBalance b tx) }
          :: (ledgerWalk (stepBalance b tx) (d + tx.debit) (c + tx.credit) rest).entries
        from rfl]
    rw [List.getElem?_cons_succ, ih, stepBalance_eq_claimSigned]
    simp [add_assoc]

theorem ledgerWalk_balanceType_mem :
    ∀ (l : List Transaction) (b d c : ℤ) (e : LedgerEntry),
      e ∈ (ledgerWalk b d c l).entries →
      e.balanceType = entryBalanceType (isAssetOrExpense e.accountType) e.balance
  | [], _, _, _, _, he => by simp [ledgerWalk] at he
  | tx :: rest, b, d, c, e, he => by
    rw [show (ledgerWalk b d c (tx :: rest)).entries
        = { toTransaction := tx
            balance := stepBalance b tx
            balanceType := entryBalanceType (isAssetOrExpense tx.accountType) (stepBalance b tx) }
          :: (ledgerWalk (stepBalance b tx) (d + tx.debit) (c + tx.credit) rest).entries
        from rfl] at he
    rcases List.mem_cons.mp he with he | he
    · subst he; rfl
    · exact ledgerWalk_balanceType_mem rest _ _ _ e he

theorem mkLedger_accountName (txs : List Transaction) (p : String) :
    (mkLedger txs p).accountName = p := rfl

theorem mkLedger_entries (txs : List Transaction) (p : String) :
    (mkLedger txs p).entries = (ledgerWalk 0 0 0 (partyTxs txs p)).entries := rfl

theorem mkLedger_openingBalance (txs : List Transaction) (p : String) :
    (mkLedger txs p).openingBalance = 0 := rfl

theorem mkLedger_closingBalance (txs : List Transaction) (p : String) :
    (mkLedger txs p).closingBalance = (ledgerWalk 0 0 0 (partyTxs txs p)).runningBalance := rfl

theorem mkLedger_closingBalanceType (txs : List Transaction) (p : String) :
    (mkLedger txs p).closingBalanceType
      = entryBalanceType (firstIsAssetOrExpense (partyTxs txs p))
          ((ledgerWalk 0 0 0 (partyTxs txs p)).runningBalance) := rfl

theorem mkLedger_totalDebit (txs : List Transaction) (p : String) :
    (mkLedger txs p).totalDebit = (ledgerWalk 0 0 0 (partyTxs txs p)).totalDebit := rfl

theorem mkLedger_totalCredit (txs : List Transaction) (p : String) :
    (mkLedger txs p).totalCredit = (ledgerWalk 0 0 0 (partyTxs txs p)).totalCredit := rfl

theorem mem_firstSeen : ∀ (l : List String) (a : String), a ∈ firstSeen l ↔ a ∈ l
  | [], a => by simp [firstSeen]
  | x :: xs, a => by
    by_cases h : a = x
    · subst h; simp [firstSeen]
    · simp [firstSeen, List.mem_filter, mem_firstSeen xs, h]

theorem nodup_firstSeen : ∀ l : List String, (firstSeen l).Nodup
  | [] => List.nodup_nil
  | x :: xs => by
    rw [show firstSeen (x :: xs) = x :: (firstSeen xs).filter (fun y => !(y == x)) from rfl]
    refine List.nodup_cons.mpr ⟨?_, (nodup_firstSeen xs).filter _⟩
    intro hx
    have := (List.mem_filter.mp hx).2
    simp at this

theorem firstSeen_eq_nil_iff : ∀ l : List String, firstSeen l = [] ↔ l = []
  | [] => by simp [firstSeen]
  | x :: xs => by simp [firstSeen]

theorem firstSeen_indexOf_lt :
    ∀ l : List String,
      (firstSeen l).Pairwise (fun x y => l.indexOf x < l.indexOf y)
  | [] => by simp [firstSeen]
  | x :: xs => by
    rw [show firstSeen (x :: xs) = x :: (firstSeen xs).filter (fun y => !(y == x)) from rfl]
    refine List.pairwise_cons.mpr ⟨?_, ?_⟩
    · intro y hy
      have hyx : y ≠ x := by
        have := (List.mem_filter.mp hy).2
        simpa using this
      rw [List.indexOf_cons_self, List.indexOf_cons_ne _ (Ne.symm hyx)]
      exact Nat.succ_pos _
    · have ih := (firstSeen_indexOf_lt xs).filter (fun y => !(y == x))
      refine ih.imp_of_mem ?_
      intro a b ha hb hab
      have hax : a ≠ x := by
        have := (List.mem_filter.mp ha).2
        simpa using this
      have hbx : b ≠ x := by
        have := (List.mem_filter.mp hb).2
        simpa using this
      rw [List.indexOf_cons_ne _ (Ne.symm hax), List.indexOf_cons_ne _ (Ne.symm hbx)]
      exact Nat.succ_lt_succ hab

theorem flatMap_congr {α β : Type} {l : List α} {f g : α → List β}
    (h : ∀ a ∈ l, f a = g a) : l.flatMap f = l.flatMap g := by
  induction l with
  | nil => rfl
  | cons a l ih =>
    rw [List.flatMap_cons, List.flatMap_cons, h a (List.mem_cons_self a l),
      ih (fun b hb => h b (List.mem_cons_of_mem a hb))]

theorem flatMap_perm_congr {α β : Type} {l : List α} {f g : α → List β}
    (h : ∀ a ∈ l, (f a).Perm (g a)) : (l.flatMap f).Perm (l.flatMap g) := by
  induction l with
  | nil => exact List.Perm.refl _
  | cons a l ih =>
    rw [List.flatMap_cons, List.flatMap_cons]
    exact (h a (List.mem_cons_self a l)).append (ih (fun b hb => h b (List.mem_cons_of_mem a hb)))

theorem flatMap_filter_perm :
    ∀ (ps : List String) (txs : List Transaction), ps.Nodup →
      (∀ t ∈ txs, t.party ∈ ps) →
      (ps.flatMap (fun p => txs.filter (fun t => t.party == p))).Perm txs
  | [], txs, _, hall => by
    cases txs with
    | nil => simp
    | cons t ts => exact absurd (hall t (List.mem_cons_self t ts)) (List.not_mem_nil _)
  | p :: ps, txs, hnd, hall => by
    have hpnotin : p ∉ ps := (List.nodup_cons.mp hnd).1
    have hndps : ps.Nodup := (List.nodup_cons.mp hnd).2
    rw [List.flatMap_cons]
    have hcongr :
        ps.flatMap (fun q => txs.filter (fun t => t.party == q))
          = ps.flatMap (fun q => (txs.filter (fun t => !(t.party == p))).filter
              (fun t => t.party == q)) := by
      refine flatMap_congr ?_
      intro q hq
      have hqp : q ≠ p := fun hqp => hpnotin (hqp ▸ hq)
      rw [List.filter_filter]
      refine (List.filter_congr ?_).symm
      intro t _
      by_cases ht : t.party = q
      · simp [ht, hqp]
      · simp [ht]
    rw [hcongr]
    have hih := flatMap_filter_perm ps (txs.filter (fun t => !(t.party == p))) hndps ?side
    case side =>
      intro t ht
      have hmem := (List.mem_filter.mp ht).1
      have hne : ¬(t.party == p) = true := by
        have := (List.mem_filter.mp ht).2
        simpa using this
      have := hall t hmem
      rcases List.mem_cons.mp this with h | h
      · exact absurd (by simp [h]) hne
      · exact h
    refine (hih.append_left (txs.filter (fun t => t.party == p))).trans ?_
    exact List.filter_append_perm _ txs

/-- Stability of the date sort: filtering the sorted list down to one date
value gives exactly the same-date transactions in their original order. -/
theorem filter_date_mergeSort (d : String) :
    ∀ l : List Transaction,
      (l.mergeSort dateLE).filter (fun t => t.date == d)
        = l.filter (fun t => t.date == d)
  | [] => by simp
  | a :: l => by
    obtain ⟨l₁, l₂, h₁, h₂, h₃⟩ := List.mergeSort_cons dateLE_trans dateLE_total a l
    have ih := filter_date_mergeSort d l
    rw [h₂, List.filter_append] at ih
    rw [h₁, List.filter_append, List.filter_cons, List.filter_cons]
    by_cases had : (a.date == d) = true
    · have hl₁ : l₁.filter (fun t => t.date == d) = [] := by
        rw [List.filter_eq_nil_iff]
        intro b hb hbd
        have h3 := h₃ b hb
        have hdate : a.date = b.date := by
          have ha : a.date = d := by simpa using had
          have hb' : b.date = d := by simpa using hbd
          rw [ha, hb']
        have : dateLE a b = true := dateLE_of_date_eq hdate
        simp [this] at h3
      rw [hl₁] at ih ⊢
      rw [List.nil_append] at ih
      simp only [had, if_pos, List.nil_append]
      rw [ih]
    · have hneg : ¬((a.date == d) = true) := had
      simp only [hneg, if_neg, ite_false]
      exact ih

/-- Membership in the output: a ledger is `mkLedger` of some first-seen
party. -/
theorem mem_ledgers {txs : List Transaction} {L : AccountLedger} :
    L ∈ ledgers txs ↔
      ∃ p, p ∈ firstSeen (txs.map (fun t => t.party)) ∧ L = mkLedger txs p := by
  constructor
  · intro h
    obtain ⟨p, hp, hL⟩ := List.mem_map.mp h
    exact ⟨p, hp, hL.symm⟩
  · rintro ⟨p, hp, rfl⟩
    exact List.mem_map.mpr ⟨p, hp, rfl⟩

/-- The entries of a party's ledger, seen as transactions, are exactly the
sorted party transactions. -/
theorem mkLedger_entries_tx (txs : List Transaction) (p : String) :
    ((mkLedger txs p).entries).map (fun e => e.toTransaction) = partyTxs txs p := by
  rw [mkLedger_entries]
  exact ledgerWalk_entries_map_tx _ _ _ _

/-- The sorted party list is a permutation of the unsorted filter. -/
theorem partyTxs_perm_filter (txs : List Transaction) (p : String) :
    (partyTxs txs p).Perm (txs.filter (fun t => t.party == p)) :=
  List.mergeSort_perm _ _

/-- Every transaction in `partyTxs txs p` has party `p`. -/
theorem partyTxs_party (txs : List Transaction) (p : String) :
    ∀ t ∈ partyTxs txs p, t.party = p := by
  intro t ht
  have := (partyTxs_perm_filter txs p).mem_iff.mp ht
  have := (List.mem_filter.mp this).2
  simpa using this

/-- The sorted party list is pairwise `dateLE`-sorted. -/
theorem partyTxs_sorted (txs : List Transaction) (p : String) :
    (partyTxs txs p).Pairwise (fun a b => dateLE a b = true) :=
  List.sorted_mergeSort dateLE_trans dateLE_total _

/-- C1: for every input transaction list and every output ledger, the
balance of the k-th entry equals the prefix sum, over the date-sorted
transactions of that party up to and including position k, of
`debit - credit` for `Asset`/`Expense` transactions and `credit - debit`
for `Liability`/`Income`/`Equity` transactions, starting from 0. -/
theorem C1_running_balance (txs : List Transaction) (L : AccountLedger)
    (hL : L ∈ ledgers txs) (k : Nat) (hk : k < L.entries.length) :
    (L.entries[k]?).map (fun e => e.balance)
      = some ((((partyTxs txs L.accountName).take (k + 1)).map claimSigned).sum) := by
  obtain ⟨p, hp, rfl⟩ := mem_ledgers.mp hL
  rw [mkLedger_entries] at hk ⊢
  rw [mkLedger_accountName]
  have hk' : k < (partyTxs txs p).length := by
    rw [← ledgerWalk_entries_length (partyTxs txs p) 0 0 0]
    exact hk
  have h := ledgerWalk_balance_at (partyTxs txs p) 0 0 0 k hk'
  simpa using h

/-- C2: an entry's `balanceType` is `Dr` exactly when the entry's own
account type is debit-natured (`Asset`/`Expense`) and its balance is
nonnegative, or the account type is credit-natured
(`Liability`/`Income`/`Equity`) and its balance is negative; in every
other case it is `Cr`. -/
theorem C2_balance_label (txs : List Transaction) (L : AccountLedger)
    (hL : L ∈ ledgers txs) (e : LedgerEntry) (he : e ∈ L.entries) :
    (e.balanceType = BalanceType.Dr ↔
      ((e.accountType = AccountType.Asset ∨ e.accountType = AccountType.Expense)
          ∧ 0 ≤ e.balance)
        ∨ ((e.accountType = AccountType.Liability ∨ e.accountType = AccountType.Income
              ∨ e.accountType = AccountType.Equity) ∧ e.balance < 0)) ∧
    (e.balanceType = BalanceType.Cr ↔
      ¬(((e.accountType = AccountType.Asset ∨ e.accountType = AccountType.Expense)
          ∧ 0 ≤ e.balance)
        ∨ ((e.accountType = AccountType.Liability ∨ e.accountType = AccountType.Income
              ∨ e.accountType = AccountType.Equity) ∧ e.balance < 0))) := by
  obtain ⟨p, hp, rfl⟩ := mem_ledgers.mp hL
  rw [mkLedger_entries] at he
  have hbt := ledgerWalk_balanceType_mem _ _ _ _ e he
  rw [hbt]
  by_cases h0 : (0 : ℤ) ≤ e.balance <;>
    cases hat : e.accountType <;>
      simp [entryBalanceType, isAssetOrExpense, hat, h0, ge_iff_le] <;>
        omega

/-- C3: a ledger's `closingBalance` is the final accumulator value, its
`closingBalanceType` is determined by the sign-adjusted rule applied to
the FIRST date-sorted transaction's account type only, while each
individual running-balance step uses the stepped entry's own account
type. -/
theorem C3_closing_first_accountType (txs : List Transaction) (L : AccountLedger)
    (hL : L ∈ ledgers txs) (t0 : Transaction) (rest : List Transaction)
    (hfirst : partyTxs txs L.accountName = t0 :: rest) :
    L.closingBalance = ((partyTxs txs L.accountName).map claimSigned).sum ∧
    L.closingBalanceType =
      (if 0 ≤ L.closingBalance
       then (if t0.accountType = AccountType.Asset ∨ t0.accountType = AccountType.Expense
             then BalanceType.Dr else BalanceType.Cr)
       else (if t0.accountType = AccountType.Asset ∨ t0.accountType = AccountType.Expense
             then BalanceType.Cr else BalanceType.Dr)) ∧
    ∀ (k : Nat), k + 1 < L.entries.length →
      ∀ (e e2 : LedgerEntry), L.entries[k]? = some e → L.entries[k + 1]? = some e2 →
        e2.balance = e.balance + claimSigned e2.toTransaction := by
  obtain ⟨p, hp, rfl⟩ := mem_ledgers.mp hL
  rw [mkLedger_accountName] at hfirst
  have hclose : (mkLedger txs p).closingBalance
      = ((partyTxs txs p).map claimSigned).sum := by
    rw [mkLedger_closingBalance, ledgerWalk_runningBalance]
    simp
  refine ⟨by rw [mkLedger_accountName]; exact hclose, ?_, ?_⟩
  · rw [mkLedger_closingBalanceType,
      show (mkLedger txs p).closingBalance
        = (ledgerWalk 0 0 0 (partyTxs txs p)).runningBalance from rfl,
      hfirst,
      show firstIsAssetOrExpense (t0 :: rest) = isAssetOrExpense t0.accountType from rfl]
    generalize (ledgerWalk 0 0 0 (t0 :: rest)).runningBalance = B
    cases hat : t0.accountType <;>
      by_cases h0 : (0 : ℤ) ≤ B <;>
        simp [entryBalanceType, isAssetOrExpense, hat, h0, ge_iff_le]
  · intro k hk e e2 he he2
    rw [mkLedger_entries] at hk he he2
    have hlen := ledgerWalk_entries_length (partyTxs txs p) 0 0 0
    have hk2 : k + 1 < (partyTxs txs p).length := by rw [← hlen]; exact hk
    have hk1 : k < (partyTxs txs p).length := Nat.lt_of_succ_lt hk2
    have hb1 := ledgerWalk_balance_at (partyTxs txs p) 0 0 0 k hk1
    have hb2 := ledgerWalk_balance_at (partyTxs txs p) 0 0 0 (k + 1) hk2
    rw [he] at hb1
    rw [he2] at hb2
    have hbe : e.balance = (((partyTxs txs p).take (k + 1)).map claimSigned).sum := by
      have := Option.some.inj hb1
      simpa using this
    have hbe2 : e2.balance = (((partyTxs txs p).take (k + 2)).map claimSigned).sum := by
      have := Option.some.inj hb2
      simpa using this
    have htx : (partyTxs txs p)[k + 1]? = some e2.toTransaction := by
      have hmap := ledgerWalk_entries_map_tx (partyTxs txs p) 0 0 0
      have := List.getElem?_map (fun e : LedgerEntry => e.toTransaction)
        ((ledgerWalk 0 0 0 (partyTxs txs p)).entries) (k + 1)
      rw [hmap, he2] at this
      simpa using this
    have htake : (partyTxs txs p).take (k + 2) = (partyTxs txs p).take (k + 1)
        ++ [e2.toTransaction] := by
      rw [List.take_succ, htx]
      rfl
    rw [hbe, hbe2, htake]
    simp

/-- C4: the entries of all output ledgers, read back as transactions, are
a permutation of the input list; every entry sits in the ledger named
after its own party; ledger names are pairwise distinct; and every input
transaction has a ledger named after its party. -/
theorem C4_partition (txs : List Transaction) :
    ((ledgers txs).flatMap (fun L => L.entries.map (fun e => e.toTransaction))).Perm txs ∧
    (∀ L ∈ ledgers txs, ∀ e ∈ L.entries, e.party = L.accountName) ∧
    ((ledgers txs).map (fun L => L.accountName)).Nodup ∧
    (∀ t ∈ txs, ∃ L ∈ ledgers txs, L.accountName = t.party) := by
  refine ⟨?_, ?_, ?_, ?_⟩
  · rw [ledgers, List.flatMap_map]
    have h1 : (firstSeen (txs.map (fun t => t.party))).flatMap
        (fun p => ((mkLedger txs p).entries).map (fun e => e.toTransaction))
        = (firstSeen (txs.map (fun t => t.party))).flatMap (fun p => partyTxs txs p) :=
      flatMap_congr (fun p _ => mkLedger_entries_tx txs p)
    rw [h1]
    refine (flatMap_perm_congr (fun p _ => partyTxs_perm_filter txs p)).trans ?_
    refine flatMap_filter_perm _ txs (nodup_firstSeen _) ?_
    intro t ht
    exact (mem_firstSeen _ _).mpr (List.mem_map.mpr ⟨t, ht, rfl⟩)
  · intro L hL e he
    obtain ⟨p, hp, rfl⟩ := mem_ledgers.mp hL
    rw [mkLedger_entries] at he
    rw [mkLedger_accountName]
    have hmem : e.toTransaction ∈ partyTxs txs p := by
      rw [← mkLedger_entries_tx txs p, mkLedger_entries]
      exact List.mem_map.mpr ⟨e, he, rfl⟩
    exact partyTxs_party txs p _ hmem
  · have h : (ledgers txs).map (fun L => L.accountName)
        = firstSeen (txs.map (fun t => t.party)) := by
      rw [ledgers, List.map_map]
      exact List.map_id'' (fun p => mkLedger_accountName txs p) _
    rw [h]
    exact nodup_firstSeen _
  · intro t ht
    refine ⟨mkLedger txs t.party, ?_, mkLedger_accountName txs t.party⟩
    exact mem_ledgers.mpr ⟨t.party,
      (mem_firstSeen _ _).mpr (List.mem_map.mpr ⟨t, ht, rfl⟩), rfl⟩

/-- C5: within each output ledger the entries are sorted by date
ascending under string comparison, and for each date value the entries
carrying it appear in their input order (the sort is stable). -/
theorem C5_sorted_stable (txs : List Transaction) (L : AccountLedger)
    (hL : L ∈ ledgers txs) :
    L.entries.Pairwise (fun a b => strLE a.date b.date = true) ∧
    ∀ d : String,
      ((L.entries.filter (fun e => e.date == d)).map (fun e => e.toTransaction))
        = txs.filter (fun t => t.party == L.accountName && t.date == d) := by
  obtain ⟨p, hp, rfl⟩ := mem_ledgers.mp hL
  constructor
  · have hs := partyTxs_sorted txs p
    rw [← mkLedger_entries_tx txs p] at hs
    exact (List.pairwise_map.mp hs)
  · intro d
    rw [mkLedger_accountName]
    have h1 : (((mkLedger txs p).entries).map (fun e => e.toTransaction)).filter
        (fun t => t.date == d)
        = (((mkLedger txs p).entries).filter (fun e => e.date == d)).map
            (fun e => e.toTransaction) := by
      rw [List.filter_map]
      rfl
    rw [← h1, mkLedger_entries_tx]
    rw [show partyTxs txs p
        = (txs.filter (fun t => t.party == p)).mergeSort dateLE from rfl]
    rw [filter_date_mergeSort d, List.filter_filter]
    refine List.filter_congr ?_
    intro t _
    exact Bool.and_comm _ _

/-- C6: there is exactly one output ledger per distinct party value, the
ledgers appear in order of each party's first appearance in the input,
the output is empty iff the input is empty, and each ledger has as many
entries as its party has transactions. -/
theorem C6_one_ledger_per_party (txs : List Transaction) :
    ((ledgers txs).map (fun L => L.accountName)).Nodup ∧
    (∀ p : String,
      p ∈ (ledgers txs).map (fun L => L.accountName) ↔ p ∈ txs.map (fun t => t.party)) ∧
    ((ledgers txs).map (fun L => L.accountName)).Pairwise
      (fun x y => (txs.map (fun t => t.party)).indexOf x
        < (txs.map (fun t => t.party)).indexOf y) ∧
    (ledgers txs = [] ↔ txs = []) ∧
    (∀ L ∈ ledgers txs, L.entries.length = txs.countP (fun t => t.party == L.accountName)) := by
  have hnames : (ledgers txs).map (fun L => L.accountName)
      = firstSeen (txs.map (fun t => t.party)) := by
    rw [ledgers, List.map_map]
    exact List.map_id'' (fun p => mkLedger_accountName txs p) _
  refine ⟨?_, ?_, ?_, ?_, ?_⟩
  · rw [hnames]; exact nodup_firstSeen _
  · intro p
    rw [hnames]
    exact mem_firstSeen _ p
  · rw [hnames]
    exact firstSeen_indexOf_lt _
  · rw [ledgers]
    rw [List.map_eq_nil_iff, firstSeen_eq_nil_iff, List.map_eq_nil_iff]
  · intro L hL
    obtain ⟨p, hp, rfl⟩ := mem_ledgers.mp hL
    rw [mkLedger_accountName, mkLedger_entries, ledgerWalk_entries_length,
      (partyTxs_perm_filter txs p).length_eq, List.countP_eq_length_filter]

/-- C7: `totalDebit` and `totalCredit` are the sums of the party's debit
and credit amounts, independent of the order of the party's
transactions. -/
theorem C7_totals (txs : List Transaction) (L : AccountLedger)
    (hL : L ∈ ledgers txs) :
    L.totalDebit = ((txs.filter (fun t => t.party == L.accountName)).map
      (fun t => t.debit)).sum ∧
    L.totalCredit = ((txs.filter (fun t => t.party == L.accountName)).map
      (fun t => t.credit)).sum ∧
    ∀ l : List Transaction, l.Perm (txs.filter (fun t => t.party == L.accountName)) →
      L.totalDebit = (l.map (fun t => t.debit)).sum ∧
      L.totalCredit = (l.map (fun t => t.credit)).sum := by
  obtain ⟨p, hp, rfl⟩ := mem_ledgers.mp hL
  rw [mkLedger_accountName]
  have hd : (mkLedger txs p).totalDebit
      = ((txs.filter (fun t => t.party == p)).map (fun t => t.debit)).sum := by
    rw [mkLedger_totalDebit, ledgerWalk_totalDebit]
    rw [((partyTxs_perm_filter txs p).map (fun t => t.debit)).sum_eq]
    simp
  have hc : (mkLedger txs p).totalCredit
      = ((txs.filter (fun t => t.party == p)).map (fun t => t.credit)).sum := by
    rw [mkLedger_totalCredit, ledgerWalk_totalCredit]
    rw [((partyTxs_perm_filter txs p).map (fun t => t.credit)).sum_eq]
    simp
  refine ⟨hd, hc, ?_⟩
  intro l hl
  rw [hd, hc, (hl.map (fun t => t.debit)).sum_eq, (hl.map (fun t => t.credit)).sum_eq]
  exact ⟨rfl, rfl⟩

/-- C8: every output ledger has at least one entry (ledgers exist only
for parties with a transaction), `openingBalance` is always 0, and
`closingBalance` equals the balance of the last entry. -/
theorem C8_nonempty_closing_last (txs : List Transaction) (L : AccountLedger)
    (hL : L ∈ ledgers txs) :
    L.entries ≠ [] ∧ L.openingBalance = 0 ∧
    (L.entries.getLast?).map (fun e => e.balance) = some L.closingBalance := by
  obtain ⟨p, hp, rfl⟩ := mem_ledgers.mp hL
  obtain ⟨t, ht, htp⟩ := List.mem_map.mp ((mem_firstSeen _ _).mp hp)
  have htf : t ∈ txs.filter (fun t => t.party == p) :=
    List.mem_filter.mpr ⟨ht, by simp [htp]⟩
  have hpos : 0 < (partyTxs txs p).length := by
    rw [(partyTxs_perm_filter txs p).length_eq]
    exact List.length_pos.mpr (List.ne_nil_of_mem htf)
  have hlen : (mkLedger txs p).entries.length = (partyTxs txs p).length := by
    rw [mkLedger_entries, ledgerWalk_entries_length]
  have hne : (mkLedger txs p).entries ≠ [] := by
    refine List.length_pos.mp ?_
    rw [hlen]
    exact hpos
  refine ⟨hne, mkLedger_openingBalance txs p, ?_⟩
  rw [List.getLast?_eq_getElem?]
  have hk : (mkLedger txs p).entries.length - 1 < (partyTxs txs p).length := by
    rw [hlen]
    omega
  have h := ledgerWalk_balance_at (partyTxs txs p) 0 0 0
    ((mkLedger txs p).entries.length - 1) hk
  rw [← mkLedger_entries] at h
  rw [h]
  have htk : (mkLedger txs p).entries.length - 1 + 1 = (partyTxs txs p).length := by
    rw [hlen]
    omega
  rw [htk, List.take_length, mkLedger_closingBalance, ledgerWalk_runningBalance]

/-- C9: the derivation is a pure, deterministic function of the input
transaction list: equal inputs give deep-equal (structurally equal)
outputs. -/
theorem C9_deterministic (txs₁ txs₂ : List Transaction) (h : txs₁ = txs₂) :
    ledgers txs₁ = ledgers txs₂ :=
  congrArg ledgers h

theorem sum_claimSigned_debit_natured :
    ∀ l : List Transaction,
      (∀ t ∈ l, t.accountType = AccountType.Asset ∨ t.accountType = AccountType.Expense) →
      (l.map claimSigned).sum
        = (l.map (fun t => t.debit)).sum - (l.map (fun t => t.credit)).sum
  | [], _ => by simp
  | t :: l, h => by
    have ht := h t (List.mem_cons_self t l)
    have ih := sum_claimSigned_debit_natured l (fun b hb => h b (List.mem_cons_of_mem t hb))
    have hct : claimSigned t = t.debit - t.credit := by
      rcases ht with h1 | h1 <;> simp [claimSigned, h1]
    simp only [List.map_cons, List.sum_cons, hct, ih]
    ring

theorem sum_claimSigned_credit_natured :
    ∀ l : List Transaction,
      (∀ t ∈ l, t.accountType = AccountType.Liability ∨ t.accountType = AccountType.Income
        ∨ t.accountType = AccountType.Equity) →
      (l.map claimSigned).sum
        = (l.map (fun t => t.credit)).sum - (l.map (fun t => t.debit)).sum
  | [], _ => by simp
  | t :: l, h => by
    have ht := h t (List.mem_cons_self t l)
    have ih := sum_claimSigned_credit_natured l (fun b hb => h b (List.mem_cons_of_mem t hb))
    have hct : claimSigned t = t.credit - t.debit := by
      rcases ht with h1 | h1 | h1 <;> simp [claimSigned, h1]
    simp only [List.map_cons, List.sum_cons, hct, ih]
    ring

/-- C10: a ledger all of whose transactions are debit-natured
(`Asset`/`Expense`) closes at `totalDebit - totalCredit`; one all of
whose transactions are credit-natured (`Liability`/`Income`/`Equity`)
closes at `totalCredit - totalDebit`. -/
theorem C10_closing_vs_totals (txs : List Transaction) (L : AccountLedger)
    (hL : L ∈ ledgers txs) :
    ((∀ e ∈ L.entries, e.accountType = AccountType.Asset
        ∨ e.accountType = AccountType.Expense) →
      L.closingBalance = L.totalDebit - L.totalCredit) ∧
    ((∀ e ∈ L.entries, e.accountType = AccountType.Liability
        ∨ e.accountType = AccountType.Income ∨ e.accountType = AccountType.Equity) →
      L.closingBalance = L.totalCredit - L.totalDebit) := by
  obtain ⟨p, hp, rfl⟩ := mem_ledgers.mp hL
  have hclose : (mkLedger txs p).closingBalance
      = ((partyTxs txs p).map claimSigned).sum := by
    rw [mkLedger_closingBalance, ledgerWalk_runningBalance]
    simp
  have hd : (mkLedger txs p).totalDebit = ((partyTxs txs p).map (fun t => t.debit)).sum := by
    rw [mkLedger_totalDebit, ledgerWalk_totalDebit]
    simp
  have hc : (mkLedger txs p).totalCredit
      = ((partyTxs txs p).map (fun t => t.credit)).sum := by
    rw [mkLedger_totalCredit, ledgerWalk_totalCredit]
    simp
  have htrans : ∀ (P : AccountType → Prop),
      (∀ e ∈ (mkLedger txs p).entries, P e.accountType) →
      ∀ t ∈ partyTxs txs p, P t.accountType := by
    intro P hP t ht
    rw [← mkLedger_entries_tx txs p] at ht
    obtain ⟨e, he, rfl⟩ := List.mem_map.mp ht
    exact hP e he
  constructor
  · intro hall
    rw [hclose, hd, hc]
    exact sum_claimSigned_debit_natured _
      (htrans (fun a => a = AccountType.Asset ∨ a = AccountType.Expense) hall)
  · intro hall
    rw [hclose, hd, hc]
    exact sum_claimSigned_credit_natured _
      (htrans (fun a => a = AccountType.Liability ∨ a = AccountType.Income
        ∨ a = AccountType.Equity) hall)

/-- A concrete asset-type transaction used to instantiate the theorems. -/
def wtx1 : Transaction :=
  { id := "t1", date := "2024-01-01", particulars := "Cash sale", debit := 1000,
    credit := 0, party := "ABC Traders", accountType := AccountType.Asset }

/-- A concrete liability-type transaction of the same party (mixed
account types within one party). -/
def wtx2 : Transaction :=
  { id := "t2", date := "2024-01-05", particulars := "Loan received", debit := 0,
    credit := 400, party := "ABC Traders", accountType := AccountType.Liability }

/-- A concrete income-type transaction of a second party. -/
def wtx3 : Transaction :=
  { id := "t3", date := "2024-02-01", particulars := "Invoice", debit := 0,
    credit := 5000, party := "Sales Revenue", accountType := AccountType.Income }

/-- A concrete input list with two parties. -/
def wtxs : List Transaction := [wtx1, wtx2, wtx3]

/-- The derived ledger of the first party. -/
def wLedgerA : AccountLedger := mkLedger wtxs "ABC Traders"

/-- The derived ledger of the second party. -/
def wLedgerS : AccountLedger := mkLedger wtxs "Sales Revenue"

/-- The first derived entry of the first party's ledger. -/
def wEntry1 : LedgerEntry :=
  { toTransaction := wtx1, balance := 1000, balanceType := BalanceType.Dr }

unseal List.merge List.mergeSort

theorem C1_running_balance_witness :
    wLedgerA ∈ ledgers wtxs ∧ 0 < wLedgerA.entries.length ∧
    (wLedgerA.entries[0]?).map (fun e => e.balance)
      = some ((((partyTxs wtxs wLedgerA.accountName).take (0 + 1)).map claimSigned).sum) :=
  ⟨by decide, by decide, C1_running_balance wtxs wLedgerA (by decide) 0 (by decide)⟩

theorem C2_balance_label_witness :
    wLedgerA ∈ ledgers wtxs ∧ wEntry1 ∈ wLedgerA.entries ∧
    ((wEntry1.balanceType = BalanceType.Dr ↔
      ((wEntry1.accountType = AccountType.Asset ∨ wEntry1.accountType = AccountType.Expense)
          ∧ 0 ≤ wEntry1.balance)
        ∨ ((wEntry1.accountType = AccountType.Liability
              ∨ wEntry1.accountType = AccountType.Income
              ∨ wEntry1.accountType = AccountType.Equity) ∧ wEntry1.balance < 0)) ∧
    (wEntry1.balanceType = BalanceType.Cr ↔
      ¬(((wEntry1.accountType = AccountType.Asset ∨ wEntry1.accountType = AccountType.Expense)
          ∧ 0 ≤ wEntry1.balance)
        ∨ ((wEntry1.accountType = AccountType.Liability
              ∨ wEntry1.accountType = AccountType.Income
              ∨ wEntry1.accountType = AccountType.Equity) ∧ wEntry1.balance < 0)))) :=
  ⟨by decide, by decide, C2_balance_label wtxs wLedgerA (by decide) wEntry1 (by decide)⟩

theorem C3_closing_first_accountType_witness :
    wLedgerA ∈ ledgers wtxs ∧
    partyTxs wtxs wLedgerA.accountName = wtx1 :: [wtx2] ∧
    (wLedgerA.closingBalance = ((partyTxs wtxs wLedgerA.accountName).map claimSigned).sum ∧
    wLedgerA.closingBalanceType =
      (if 0 ≤ wLedgerA.closingBalance
       then (if wtx1.accountType = AccountType.Asset ∨ wtx1.accountType = AccountType.Expense
             then BalanceType.Dr else BalanceType.Cr)
       else (if wtx1.accountType = AccountType.Asset ∨ wtx1.accountType = AccountType.Expense
             then BalanceType.Cr else BalanceType.Dr)) ∧
    ∀ (k : Nat), k + 1 < wLedgerA.entries.length →
      ∀ (e e2 : LedgerEntry),
        wLedgerA.entries[k]? = some e → wLedgerA.entries[k + 1]? = some e2 →
        e2.balance = e.balance + claimSigned e2.toTransaction) :=
  ⟨by decide, by decide,
    C3_closing_first_accountType wtxs wLedgerA (by decide) wtx1 [wtx2] (by decide)⟩

theorem C4_partition_witness :
    ((ledgers wtxs).flatMap (fun L => L.entries.map (fun e => e.toTransaction))).Perm wtxs ∧
    (∀ L ∈ ledgers wtxs, ∀ e ∈ L.entries, e.party = L.accountName) ∧
    ((ledgers wtxs).map (fun L => L.accountName)).Nodup ∧
    (∀ t ∈ wtxs, ∃ L ∈ ledgers wtxs, L.accountName = t.party) :=
  C4_partition wtxs

theorem C5_sorted_stable_witness :
    wLedgerA ∈ ledgers wtxs ∧
    (wLedgerA.entries.Pairwise (fun a b => strLE a.date b.date = true) ∧
    ∀ d : String,
      ((wLedgerA.entries.filter (fun e => e.date == d)).map (fun e => e.toTransaction))
        = wtxs.filter (fun t => t.party == wLedgerA.accountName && t.date == d)) :=
  ⟨by decide, C5_sorted_stable wtxs wLedgerA (by decide)⟩

theorem C6_one_ledger_per_party_witness :
    ((ledgers wtxs).map (fun L => L.accountName)).Nodup ∧
    (∀ p : String,
      p ∈ (ledgers wtxs).map (fun L => L.accountName) ↔ p ∈ wtxs.map (fun t => t.party)) ∧
    ((ledgers wtxs).map (fun L => L.accountName)).Pairwise
      (fun x y => (wtxs.map (fun t => t.party)).indexOf x
        < (wtxs.map (fun t => t.party)).indexOf y) ∧
    (ledgers wtxs = [] ↔ wtxs = []) ∧
    (∀ L ∈ ledgers wtxs, L.entries.length = wtxs.countP (fun t => t.party == L.accountName)) :=
  C6_one_ledger_per_party wtxs

theorem C7_totals_witness :
    wLedgerA ∈ ledgers wtxs ∧
    (wLedgerA.totalDebit = ((wtxs.filter (fun t => t.party == wLedgerA.accountName)).map
      (fun t => t.debit)).sum ∧
    wLedgerA.totalCredit = ((wtxs.filter (fun t => t.party == wLedgerA.accountName)).map
      (fun t => t.credit)).sum ∧
    ∀ l : List Transaction, l.Perm (wtxs.filter (fun t => t.party == wLedgerA.accountName)) →
      wLedgerA.totalDebit = (l.map (fun t => t.debit)).sum ∧
      wLedgerA.totalCredit = (l.map (fun t => t.credit)).sum) :=
  ⟨by decide, C7_totals wtxs wLedgerA (by decide)⟩

theorem C8_nonempty_closing_last_witness :
    wLedgerA ∈ ledgers wtxs ∧
    (wLedgerA.entries ≠ [] ∧ wLedgerA.openingBalance = 0 ∧
    (wLedgerA.entries.getLast?).map (fun e => e.balance) = some wLedgerA.closingBalance) :=
  ⟨by decide, C8_nonempty_closing_last wtxs wLedgerA (by decide)⟩

theorem C9_deterministic_witness :
    wtxs = wtxs ∧ ledgers wtxs = ledgers wtxs :=
  ⟨rfl, C9_deterministic wtxs wtxs rfl⟩

theorem C10_closing_vs_totals_witness :
    wLedgerS ∈ ledgers wtxs ∧
    (((∀ e ∈ wLedgerS.entries, e.accountType = AccountType.Asset
        ∨ e.accountType = AccountType.Expense) →
      wLedgerS.closingBalance = wLedgerS.totalDebit - wLedgerS.totalCredit) ∧
    ((∀ e ∈ wLedgerS.entries, e.accountType = AccountType.Liability
        ∨ e.accountType = AccountType.Income ∨ e.accountType = AccountType.Equity) →
      wLedgerS.closingBalance = wLedgerS.totalCredit - wLedgerS.totalDebit)) :=
  ⟨by decide, C10_closing_vs_totals wtxs wLedgerS (by decide)⟩

end MyLedger
